import Mathlib

/-!
Verification of the regex-permissions core (hook script `hooks/check-permissions.js`,
final revision). The JavaScript core is shallowly embedded: pure functions become
Lean functions, the host `RegExp` engine (explicitly outside the repository per the
design: the core "relies on a host-provided regular-expression matcher") is an
abstract parameter `Engine`, and the JavaScript exception paths are modelled with
`Except Unit` (`.error ()` = a thrown `TypeError`). String scanning is done at the
`List Char` level so that every definition reduces in the kernel.
-/

namespace RegexPermissions

/-- Host regex engine abstraction: given a pattern string and a flags string
(`flags || ""` in the source), return `none` when `new RegExp(pattern, flags)`
throws (invalid pattern), or `some m` where `m` is the compiled matcher's
`test` function. The process-wide `regexCache` is a pure memoization layer
(only safe, successfully compiled patterns are ever cached), so a fixed
engine function models it exactly. -/
def Engine : Type := String → String → Option (String → Bool)

-- `[+*]` character class of the safety-heuristic regex.
def isQuantChar (c : Char) : Bool := c == '+' || c == '*'

-- `[+*{]` character class: quantifier or start of a counted repetition.
-- The brace is written via its code point.
def isQuantOrBrace (c : Char) : Bool := c == '+' || c == '*' || c.toNat == 123

-- Line terminators, which the unflagged `.` of the heuristic regex does not match.
def isLineTerm (c : Char) : Bool :=
  c == '\n' || c == '\r' || c.toNat == 8232 || c.toNat == 8233

/-- Embedding of the test `/\((\.|\\.|[^)\\])[+*]\)[+*{]/.test(pattern)` from
`isSafeRegex`: the pattern contains (at some position) a literal `(`, then one
atom — a literal dot, a backslash escape `\c` with `c` not a line terminator
(the `.` of `\\.` has no `s` flag), or a single character other than `)` and
backslash — then a `+` or `*`, then a literal `)`, then `+`, `*` or `\x7b`. -/
def hasUnsafeShape : List Char → Bool
  | [] => false
  | '(' :: rest =>
      (match rest with
       | '\\' :: c :: q :: ')' :: r :: _ =>
           !isLineTerm c && isQuantChar q && isQuantOrBrace r
       | _ => false)
      ||
      (match rest with
       | c :: q :: ')' :: r :: _ =>
           (c == '.' || (c != ')' && c != '\\')) && isQuantChar q && isQuantOrBrace r
       | _ => false)
      || hasUnsafeShape rest
  | _ :: rest => hasUnsafeShape rest

/-- Source `isSafeRegex(pattern)`: `return !/\((\.|\\.|[^)\\])[+*]\)[+*{]/.test(pattern)`. -/
def isSafeRegex (pattern : String) : Bool := !hasUnsafeShape pattern.data

/-- Source `toRegex(pattern, flags)`: reject unsafe patterns with the `null`
sentinel, otherwise hand the pattern and `flags || ""` to the host engine,
which returns `null` (`none`) when the pattern is invalid — fail open, never
raise. The cache lookup is behaviourally the identity (see `Engine`). -/
def toRegex (eng : Engine) (pattern : String) (flags : Option String) :
    Option (String → Bool) :=
  if isSafeRegex pattern then eng pattern (flags.getD "") else none

-- --- Rule-text split: `raw.match(/^([^(]+)\((.+)\)$/s)` ---

/-- Scan to the first `(`: `scanTool cs = some (t, after)` splits `cs` as
`t ++ '(' :: after` where `t` (the `[^(]+` capture, possibly empty here;
emptiness is rejected by the caller) contains no `(`. -/
def scanTool : List Char → Option (List Char × List Char)
  | [] => none
  | c :: rest =>
      if c == '(' then some ([], rest)
      else
        match scanTool rest with
        | some (t, after) => some (c :: t, after)
        | none => none

-- `midSplitAux cs = some mid` iff `cs = mid ++ [')']`: the `(.+)\)$` part with
-- a possibly empty capture.
def midSplitAux : List Char → Option (List Char)
  | [] => none
  | [c] => if c == ')' then some [] else none
  | c :: c2 :: rest => (midSplitAux (c2 :: rest)).map (fun m => c :: m)

-- `midSplit cs = some mid` iff `cs = mid ++ [')']` with `mid` nonempty,
-- matching the one-or-more requirement of `(.+)` before the final `)`.
def midSplit : List Char → Option (List Char)
  | [] => none
  | c :: rest => (midSplitAux rest).map (fun m => c :: m)

/-- List-level split of a raw rule according to `/^([^(]+)\((.+)\)$/s`:
tool portion = everything before the first `(` (nonempty, no `(`), content
portion = everything between that `(` and the final `)` (nonempty; with the
`s` flag `.` matches newlines, so unconstrained; may contain parentheses). -/
def splitList (cs : List Char) : Option (List Char × List Char) :=
  match scanTool cs with
  | none => none
  | some (t, after) =>
      if t.isEmpty then none
      else
        match midSplit after with
        | none => none
        | some mid => some (t, mid)

/-- String-level wrapper of `splitList`, the `raw.match(...)` step of `parseRule`. -/
def splitRule (raw : String) : Option (String × String) :=
  match splitList raw.data with
  | none => none
  | some (t, c) => some (⟨t⟩, ⟨c⟩)

-- --- Rule entries (JavaScript values occurring in a config category array) ---

/-- JavaScript value sitting in a string-typed field (`rule`, `flags`):
either an actual string, a truthy non-string (on which a string method call
throws a TypeError), or a falsy non-string (undefined, null, 0, false, NaN). -/
inductive JsStrField where
  | str (s : String)
  | truthyNonStr
  | falsy
deriving DecidableEq, Repr

/-- Entry of a config category array: a bare string, a structured object
(with its `rule`, `reason` and `flags` fields), or any other JavaScript
value (number, boolean, null, nested array, ...), which `parseRule` rejects
because `entry?.rule` is `undefined` on it; `display` records its JavaScript
string conversion, used only by `Array.prototype.toString`. -/
inductive RuleEntry where
  | str (s : String)
  | obj (rule : JsStrField) (reason : Option String) (flags : JsStrField)
  | junk (display : String)
deriving DecidableEq, Repr

/-- Raw rule text extraction: `typeof entry === "string" ? entry : entry?.rule`
followed by `if (!raw) return null` and `raw.match(...)`. A falsy `raw`
(undefined, null, the empty string, ...) yields `null`; a truthy non-string
`raw` reaches `raw.match` and throws (`.error ()`). -/
def rawText : RuleEntry → Except Unit (Option String)
  | .str s => .ok (if s.isEmpty then none else some s)
  | .obj r _ _ =>
      match r with
      | .str s => .ok (if s.isEmpty then none else some s)
      | .falsy => .ok none
      | .truthyNonStr => .error ()
  | .junk _ => .ok none

-- `typeof entry === "object" ? entry.flags : undefined` (only reached when the
-- raw text matched the rule shape).
def entryFlagsVal : RuleEntry → JsStrField
  | .obj _ _ f => f
  | _ => .falsy

-- `typeof entry === "object" ? entry.reason : undefined`.
def entryReason : RuleEntry → Option String
  | .obj _ r _ => r
  | _ => none

-- Strip every `g` from a string: `flags.replace(/g/g, "")`.
def stripGChars (f : String) : String := ⟨f.data.filter (fun c => c != 'g')⟩

/-- Flag normalization of `parseRule`: `if (flags && flags.includes("g"))`
then `flags = flags.replace(/g/g, "") || undefined`. A falsy flags value is
left alone (and later becomes `""` via `flags || ""`), a truthy non-string
throws at `flags.includes`, and a string containing `g` is stripped, an
emptied result degrading to `undefined`. -/
def resolveFlags : JsStrField → Except Unit (Option String)
  | .falsy => .ok none
  | .truthyNonStr => .error ()
  | .str f =>
      if f.isEmpty then .ok (some f)
      else if f.data.contains 'g' then
        .ok (if (stripGChars f).isEmpty then none else some (stripGChars f))
      else .ok (some f)

-- Tool-pattern anchoring of `parseRule`: `` `^(?:${match[1]})$` ``.
def anchorTool (t : String) : String := "^(?:" ++ t ++ ")$"

/-- Parsed rule (`CompiledRule`): the compiled tool matcher, the compiled
content matcher, and the optional reason string. -/
structure CompiledRule where
  toolRe : String → Bool
  contentRe : String → Bool
  reason : Option String

/-- Source `parseRule(entry)`: extract the raw text, split it at the first
`(` and last `)`, normalize flags, compile the anchored tool pattern with no
flags and the content pattern with the entry's flags; `null` when the shape
is not found or either compilation fails. -/
def parseRule (eng : Engine) (entry : RuleEntry) :
    Except Unit (Option CompiledRule) :=
  match rawText entry with
  | .error e => .error e
  | .ok none => .ok none
  | .ok (some raw) =>
    match splitRule raw with
    | none => .ok none
    | some (t, c) =>
      match resolveFlags (entryFlagsVal entry) with
      | .error e => .error e
      | .ok flags =>
        match toRegex eng (anchorTool t) none, toRegex eng c flags with
        | some tre, some cre => .ok (some ⟨tre, cre, entryReason entry⟩)
        | _, _ => .ok none

-- --- Config values, merging, preparation ---

/-- JavaScript value found at a config category key (`deny`, `ask`, `allow`):
an array of entries, a string (malformed configuration), or a falsy value
(absent key, null, 0, false, NaN — all behave alike in `x || []` and in the
`val == null` / `Array.isArray` tests of `safeArray`). -/
inductive CVal where
  | arr (xs : List RuleEntry)
  | str (s : String)
  | falsy
deriving DecidableEq, Repr

/-- One loaded `regexPermissions` configuration object, by category. -/
structure RawConfig where
  deny : CVal
  ask : CVal
  allow : CVal
deriving DecidableEq, Repr

-- JavaScript string conversion of an array element, for `Array.prototype.toString`.
def entryToString : RuleEntry → String
  | .str s => s
  | .obj _ _ _ => "[object Object]"
  | .junk d => d

-- `String(xs)` for an array `xs`: elements converted and joined with ",".
def entriesToString (xs : List RuleEntry) : String :=
  String.intercalate "," (xs.map entryToString)

-- `x || []` on a category value: falsy values (including the empty string)
-- are replaced by the empty array.
def CVal.orEmpty : CVal → CVal
  | .falsy => .arr []
  | .str s => if s.isEmpty then .arr [] else .str s
  | .arr xs => .arr xs

/-- Category merge of `mergeConfigs`: `(a.deny || []).concat(b.deny || [])`.
When the receiver is an array, `Array.prototype.concat` appends the other
array's elements, or appends a non-array operand as a single element; when
the receiver is a (truthy) string, `String.prototype.concat` string-converts
the operand and concatenates. The last match arm is unreachable because
`orEmpty` never returns `falsy`. -/
def mergeCat (a b : CVal) : CVal :=
  match a.orEmpty, b.orEmpty with
  | .arr xs, .arr ys => .arr (xs ++ ys)
  | .arr xs, .str s => .arr (xs ++ [.str s])
  | .str s, .arr ys => .str (s ++ entriesToString ys)
  | .str s, .str t => .str (s ++ t)
  | x, _ => x

/-- Source `mergeConfigs(a, b)`: absent sides degrade to the empty rule set,
a single present side is returned verbatim, and two present sides are merged
category-wise with `a`'s entries first. -/
def mergeConfigs : Option RawConfig → Option RawConfig → RawConfig
  | none, some b => b
  | none, none => ⟨.arr [], .arr [], .arr []⟩
  | some a, none => a
  | some a, some b => ⟨mergeCat a.deny b.deny, mergeCat a.ask b.ask, mergeCat a.allow b.allow⟩

/-- Prepared rule set: the parsed rules per category, in order. -/
structure PreparedRules where
  deny : List CompiledRule
  ask : List CompiledRule
  allow : List CompiledRule

-- `safeArray(key)` of `prepareRules`: null/undefined and non-array values
-- (with a warning for the latter) degrade to the empty array.
def safeArray : CVal → List RuleEntry
  | .arr xs => xs
  | _ => []

-- `entries.map(parseRule)`: left-to-right, propagating the first thrown
-- exception.
def parseEntries (eng : Engine) : List RuleEntry → Except Unit (List (Option CompiledRule))
  | [] => .ok []
  | e :: rest =>
      match parseRule eng e with
      | .error err => .error err
      | .ok r =>
          match parseEntries eng rest with
          | .error err => .error err
          | .ok rs => .ok (r :: rs)

/-- One category of `prepareRules`: `safeArray(key).map(parseRule).filter(Boolean)`.
`Array.prototype.map` propagates an exception thrown by `parseRule`. -/
def parseCategory (eng : Engine) (v : CVal) : Except Unit (List CompiledRule) :=
  match parseEntries eng (safeArray v) with
  | .error err => .error err
  | .ok parsed => .ok (parsed.filterMap id)

/-- Source `prepareRules(config)`: parse every category, dropping `null`
results; the category object literal evaluates `deny`, `ask`, `allow` in
order, so the first thrown exception wins. -/
def prepareRules (eng : Engine) (config : RawConfig) : Except Unit PreparedRules :=
  match parseCategory eng config.deny with
  | .error err => .error err
  | .ok d =>
    match parseCategory eng config.ask with
    | .error err => .error err
    | .ok a =>
      match parseCategory eng config.allow with
      | .error err => .error err
      | .ok al => .ok ⟨d, a, al⟩

-- --- Content extraction ---

/-- The `tool_input` argument bag, restricted to the string fields the core
reads (the input contract types `tool_input` as a string-to-string mapping);
`none` models an absent key. -/
structure ToolInput where
  command : Option String
  file_path : Option String
  url : Option String
  pattern : Option String
  query : Option String
deriving DecidableEq, Repr

-- JavaScript `a || b` on string-or-undefined values: an empty string is falsy.
def jsOr (a b : Option String) : Option String :=
  match a with
  | some s => if s.isEmpty then b else some s
  | none => b

/-- Source `getPrimaryContent(toolName, toolInput)`: per-tool field selection,
with the `command || file_path || url || pattern` fallback chain for unknown
tools; `undefined` when `toolInput` is absent. -/
def getPrimaryContent (toolName : String) (toolInput : Option ToolInput) :
    Option String :=
  match toolInput with
  | none => none
  | some ti =>
      if toolName == "Bash" then ti.command
      else if toolName == "Edit" || toolName == "Write" || toolName == "Read" then
        ti.file_path
      else if toolName == "WebFetch" then ti.url
      else if toolName == "Grep" then ti.pattern
      else if toolName == "Glob" then ti.pattern
      else if toolName == "WebSearch" then ti.query
      else jsOr ti.command (jsOr ti.file_path (jsOr ti.url ti.pattern))

-- --- Evaluation ---

/-- Source `ruleMatches(parsed, toolName, content)`: the tool matcher must
accept the tool name; `content == null` (undefined content) never matches;
otherwise the content matcher decides. -/
def ruleMatches (r : CompiledRule) (toolName : String) (content : Option String) :
    Bool :=
  if !r.toolRe toolName then false
  else
    match content with
    | none => false
    | some c => r.contentRe c

/-- Source `matchesAnyLine(parsed, toolName, content, lines)` (deny/ask
matching): the full content matches, or some line of the multiline view does. -/
def matchesAnyLine (r : CompiledRule) (toolName : String) (content : Option String)
    (lines : Option (List String)) : Bool :=
  ruleMatches r toolName content ||
    match lines with
    | some ls => ls.any (fun l => ruleMatches r toolName (some l))
    | none => false

-- `content.split("\n")`: segments between newline characters, empties kept.
def splitNl : List Char → List (List Char)
  | [] => [[]]
  | c :: rest =>
      if c == '\n' then [] :: splitNl rest
      else
        match splitNl rest with
        | h :: t => (c :: h) :: t
        | [] => [[c]]

-- ASCII subset of the JavaScript `String.prototype.trim` character set
-- (space, tab, newline, carriage return, vertical tab, form feed); the
-- Unicode space characters of the full set are not modelled.
def jsTrimWhite (c : Char) : Bool :=
  c == ' ' || c == '\t' || c == '\n' || c == '\r' || c == '\x0b' || c == '\x0c'

-- `l.trim()` on a line.
def trimL (cs : List Char) : List Char :=
  ((cs.dropWhile jsTrimWhite).reverse.dropWhile jsTrimWhite).reverse

/-- Multiline view of `evaluate`: `content && content.includes("\n") ?
content.split("\n").map(l => l.trim()).filter(Boolean) : null` — falsy
(absent or empty) content and single-line content have no view; otherwise
split on newline, trim each line, and drop the empty lines. -/
def computeLines (content : Option String) : Option (List String) :=
  match content with
  | none => none
  | some c =>
      if c.data.isEmpty then none
      else if c.data.contains '\n' then
        some ((((splitNl c.data).map trimL).filter
          (fun l => !l.isEmpty)).map (fun l => (⟨l⟩ : String)))
      else none

/-- Decision record returned by `evaluate` (`null` is modelled by `Option`).
An `allow` decision carries no reason. -/
inductive Decision where
  | deny (reason : String)
  | ask (reason : String)
  | allow
deriving DecidableEq, Repr

-- `parsed.reason || "default"`: an absent or empty reason falls back to the
-- category default string.
def jsOrDefault (reason : Option String) (dflt : String) : String :=
  match reason with
  | some s => if s.isEmpty then dflt else s
  | none => dflt

/-- Source `evaluate(rules, toolName, toolInput)`: extract content, build the
multiline view, then deny pass (first rule matching the content or any line
wins), ask pass (same matching), and the asymmetric allow pass — with a
multiline view every line must match some allow rule or the result is `null`;
without one, the first allow rule matching the content wins; otherwise `null`. -/
def evaluate (rules : PreparedRules) (toolName : String)
    (toolInput : Option ToolInput) : Option Decision :=
  let content := getPrimaryContent toolName toolInput
  let lines := computeLines content
  match rules.deny.find? (fun r => matchesAnyLine r toolName content lines) with
  | some d => some (.deny (jsOrDefault d.reason "Blocked by regex-permissions deny rule"))
  | none =>
    match rules.ask.find? (fun r => matchesAnyLine r toolName content lines) with
    | some a => some (.ask (jsOrDefault a.reason "Flagged by regex-permissions ask rule"))
    | none =>
      match lines with
      | some ls =>
          if ls.all (fun line => rules.allow.any (fun r => ruleMatches r toolName (some line))) then
            some .allow
          else none
      | none =>
          if rules.allow.any (fun r => ruleMatches r toolName content) then
            some .allow
          else none

-- --- Concrete host-engine model for specific patterns ---
-- The host `RegExp` engine is outside the repository; for concrete examples
-- and witnesses, the patterns actually used are each given a hand-written
-- matcher implementing the JavaScript semantics of that regex (exact on the
-- ASCII inputs involved).

-- Subject starts with the given prefix (list level, kernel-reducible).
def startsWithL : List Char → List Char → Bool
  | _, [] => true
  | [], _ :: _ => false
  | c :: cs, d :: ds => c == d && startsWithL cs ds

-- `\s` character class, ASCII part.
def jsWs (c : Char) : Bool :=
  c == ' ' || c == '\t' || c == '\n' || c == '\r' || c == '\x0b' || c == '\x0c'

-- Matcher for `/^git\s+(status|log|diff)/`: literal "git" at the start, one
-- or more whitespace characters, then one of the three alternatives.
def matchGitSLD (s : String) : Bool :=
  match s.data with
  | 'g' :: 'i' :: 't' :: rest =>
      let ws := rest.takeWhile jsWs
      let rest2 := rest.drop ws.length
      !ws.isEmpty &&
        (startsWithL rest2 "status".data || startsWithL rest2 "log".data ||
          startsWithL rest2 "diff".data)
  | _ => false

-- ASCII lower-casing, for the `i` flag model.
def lowerAscii (c : Char) : Char :=
  if 'A' ≤ c ∧ c ≤ 'Z' then Char.ofNat (c.toNat + 32) else c

/-- Model host engine: compiles exactly the patterns the concrete examples
use, each to a matcher with the JavaScript `test` semantics of that regex;
every other pattern is reported as uncompilable. -/
def sampleEngine : Engine := fun p f =>
  if p == "^(?:Bash)$" && f == "" then some (fun s => s == "Bash")
  else if p == "^(?:Edit)$" && f == "" then some (fun s => s == "Edit")
  else if p == "^(?:WebFetch)$" && f == "" then some (fun s => s == "WebFetch")
  else if p == "^sudo" && f == "" then some (fun s => startsWithL s.data "sudo".data)
  else if p == "^git" && f == "" then some (fun s => startsWithL s.data "git".data)
  else if p == "^git\\s+(status|log|diff)" && f == "" then some matchGitSLD
  else if p == "^/tmp/" && f == "" then some (fun s => startsWithL s.data "/tmp/".data)
  else if p == "^https://example\\.com" && f == "i" then
    some (fun s => startsWithL (s.data.map lowerAscii) "https://example.com".data)
  else if p == "(-H\\s+\\S+\\s+)*" && f == "" then some (fun _ => true)
  else none

-- Extract the parsed rule from a successful parse (used only on entries that
-- do parse; the fallback rule matches nothing).
def getRule (e : Except Unit (Option CompiledRule)) : CompiledRule :=
  match e with
  | .ok (some r) => r
  | _ => ⟨fun _ => false, fun _ => false, none⟩

-- Prepared rule set with a single deny rule `Bash(^sudo)`.
def sudoDenyRules : PreparedRules :=
  ⟨[getRule (parseRule sampleEngine (.str "Bash(^sudo)"))], [], []⟩

-- Prepared rule set with a single allow rule `Bash(^git\s+(status|log|diff))`.
def gitAllowRules : PreparedRules :=
  ⟨[], [], [getRule (parseRule sampleEngine (.str "Bash(^git\\s+(status|log|diff))"))]⟩

-- Rule parsed from the bare string `Edit(^/tmp/)`.
def editRule : CompiledRule := getRule (parseRule sampleEngine (.str "Edit(^/tmp/)"))

-- Rule parsed from `{ rule: "WebFetch(^https://example\.com)", flags: "i" }`.
def webFetchIRule : CompiledRule :=
  getRule (parseRule sampleEngine
    (.obj (.str "WebFetch(^https://example\\.com)") none (.str "i")))

-- --- Definitions used only in theorem statements ---

-- First list element whose field is present (key exists), regardless of
-- emptiness.
def firstPresent : List (Option String) → Option String
  | [] => none
  | some s :: _ => some s
  | none :: rest => firstPresent rest

/-- Spec-following variant of the content extractor, written from the spec's
words "anything else: first present of `command`, `file_path`, `url`,
`pattern`, in that order" and "returns undefined if `arguments` is absent or
none of the applicable fields are present", reading "present" as key
presence. Compared against `getPrimaryContent` (the source's `||` chain). -/
def getPrimaryContentPerSpec (toolName : String) (toolInput : Option ToolInput) :
    Option String :=
  match toolInput with
  | none => none
  | some ti =>
      if toolName == "Bash" then ti.command
      else if toolName == "Edit" || toolName == "Write" || toolName == "Read" then
        ti.file_path
      else if toolName == "WebFetch" then ti.url
      else if toolName == "Grep" || toolName == "Glob" then ti.pattern
      else if toolName == "WebSearch" then ti.query
      else firstPresent [ti.command, ti.file_path, ti.url, ti.pattern]

-- First list element that is a present, non-empty string (what the `||`
-- chain returns when it returns a truthy value).
def firstNonEmpty : List (Option String) → Option String
  | [] => none
  | some s :: rest => if s.isEmpty then firstNonEmpty rest else some s
  | none :: rest => firstNonEmpty rest

-- Whole-string acceptance induced by an engine's compilation of the anchored
-- tool pattern, used to instantiate the abstract full-match semantics.
def fullMatchVia (eng : Engine) (p s : String) : Prop :=
  ∃ m, eng (anchorTool p) "" = some m ∧ m s = true

-- Prepared rule set whose deny and allow categories both hold `Bash(^git)`.
def gitDenyAllowRules : PreparedRules :=
  ⟨[getRule (parseRule sampleEngine (.str "Bash(^git)"))], [],
    [getRule (parseRule sampleEngine (.str "Bash(^git)"))]⟩

-- --- Helper lemmas: characterization of the rule-text split ---

theorem str_ne_empty (s : String) : s ≠ "" ↔ s.data ≠ [] := by
  rw [Ne, String.ext_iff]

theorem scanTool_eq_some : ∀ (cs t after : List Char),
    scanTool cs = some (t, after) ↔ (cs = t ++ '(' :: after ∧ '(' ∉ t)
  | [], t, after => by
      constructor
      · intro h; simp [scanTool] at h
      · rintro ⟨h, -⟩
        exact absurd h.symm (by simp)
  | c :: rest, t, after => by
      by_cases hc : c = '('
      · subst hc
        simp only [scanTool, beq_self_eq_true, if_true, Option.some.injEq,
          Prod.mk.injEq]
        constructor
        · rintro ⟨rfl, rfl⟩
          simp
        · rintro ⟨heq, hmem⟩
          match t, heq with
          | [], heq =>
              simp only [List.nil_append, List.cons.injEq, true_and] at heq
              exact ⟨rfl, heq⟩
          | c' :: t', heq =>
              simp only [List.cons_append, List.cons.injEq] at heq
              exact absurd (show '(' ∈ c' :: t' by
                rw [← heq.1]; exact List.mem_cons_self _ _) hmem
      · cases h' : scanTool rest with
        | none =>
            simp only [scanTool, h']
            simp only [beq_iff_eq, hc, if_false]
            constructor
            · intro h; exact absurd h (by simp)
            · rintro ⟨heq, hmem⟩
              match t, heq with
              | [], heq =>
                  simp only [List.nil_append, List.cons.injEq] at heq
                  exact absurd heq.1 hc
              | c' :: t', heq =>
                  simp only [List.cons_append, List.cons.injEq] at heq
                  have hcontra : scanTool rest = some (t', after) :=
                    (scanTool_eq_some rest t' after).mpr
                      ⟨heq.2, fun hm => hmem (List.mem_cons_of_mem c' hm)⟩
                  rw [h'] at hcontra
                  exact absurd hcontra (by simp)
        | some p =>
            obtain ⟨t0, after0⟩ := p
            have hrest := (scanTool_eq_some rest t0 after0).mp h'
            simp only [scanTool, h']
            simp only [beq_iff_eq, hc, if_false, Option.some.injEq, Prod.mk.injEq]
            constructor
            · rintro ⟨rfl, rfl⟩
              refine ⟨by rw [hrest.1]; simp, ?_⟩
              intro hm
              rcases List.mem_cons.mp hm with h1 | h1
              · exact hc h1.symm
              · exact hrest.2 h1
            · rintro ⟨heq, hmem⟩
              match t, heq with
              | [], heq =>
                  simp only [List.nil_append, List.cons.injEq] at heq
                  exact absurd heq.1 hc
              | c' :: t', heq =>
                  simp only [List.cons_append, List.cons.injEq] at heq
                  have hcontra : scanTool rest = some (t', after) :=
                    (scanTool_eq_some rest t' after).mpr
                      ⟨heq.2, fun hm => hmem (List.mem_cons_of_mem c' hm)⟩
                  rw [h'] at hcontra
                  simp only [Option.some.injEq, Prod.mk.injEq] at hcontra
                  exact ⟨by rw [heq.1, hcontra.1], hcontra.2⟩

theorem midSplitAux_eq_some : ∀ (cs mid : List Char),
    midSplitAux cs = some mid ↔ cs = mid ++ [')']
  | [], mid => by
      constructor
      · intro h; simp [midSplitAux] at h
      · intro h; exact absurd h.symm (by simp)
  | [c], mid => by
      by_cases hc : c = ')'
      · subst hc
        simp only [midSplitAux, beq_self_eq_true, if_true, Option.some.injEq]
        constructor
        · rintro rfl; rfl
        · intro h
          match mid, h with
          | [], h => rfl
          | m :: ms, h =>
              simp only [List.cons_append, List.cons.injEq] at h
              exact absurd h.2.symm (by simp)
      · simp only [midSplitAux, beq_iff_eq, hc, if_false]
        constructor
        · intro h; exact absurd h (by simp)
        · intro h
          match mid, h with
          | [], h =>
              simp only [List.nil_append, List.cons.injEq] at h
              exact absurd h.1 hc
          | m :: ms, h =>
              simp only [List.cons_append, List.cons.injEq] at h
              exact absurd h.2.symm (by simp)
  | c :: c2 :: rest, mid => by
      simp only [midSplitAux, Option.map_eq_some']
      constructor
      · rintro ⟨m, hm, rfl⟩
        have := (midSplitAux_eq_some (c2 :: rest) m).mp hm
        rw [this]; rfl
      · intro h
        match mid, h with
        | [], h => simp at h
        | m :: ms, h =>
            simp only [List.cons_append, List.cons.injEq] at h
            exact ⟨ms, (midSplitAux_eq_some (c2 :: rest) ms).mpr h.2, by rw [h.1]⟩

theorem midSplit_eq_some (cs mid : List Char) :
    midSplit cs = some mid ↔ (cs = mid ++ [')'] ∧ mid ≠ []) := by
  cases cs with
  | nil =>
      constructor
      · intro h; simp [midSplit] at h
      · rintro ⟨h, -⟩; exact absurd h.symm (by simp)
  | cons c rest =>
      simp only [midSplit, Option.map_eq_some']
      constructor
      · rintro ⟨m, hm, rfl⟩
        have := (midSplitAux_eq_some rest m).mp hm
        exact ⟨by rw [this]; rfl, by simp⟩
      · rintro ⟨heq, hne⟩
        match mid, hne, heq with
        | m :: ms, _, heq =>
            simp only [List.cons_append, List.cons.injEq] at heq
            exact ⟨ms, (midSplitAux_eq_some rest ms).mpr heq.2, by rw [heq.1]⟩

theorem splitList_eq_some (cs t c : List Char) :
    splitList cs = some (t, c) ↔
      (cs = t ++ '(' :: (c ++ [')']) ∧ t ≠ [] ∧ c ≠ [] ∧ '(' ∉ t) := by
  unfold splitList
  cases hscan : scanTool cs with
  | none =>
      constructor
      · intro h; exact absurd h (by simp)
      · rintro ⟨heq, -, -, hmem⟩
        have hcontra : scanTool cs = some (t, c ++ [')']) :=
          (scanTool_eq_some cs t (c ++ [')'])).mpr ⟨heq, hmem⟩
        rw [hscan] at hcontra
        exact absurd hcontra (by simp)
  | some p =>
      obtain ⟨t0, after0⟩ := p
      have hrest := (scanTool_eq_some cs t0 after0).mp hscan
      by_cases ht0 : t0.isEmpty
      · simp only [ht0, if_true]
        constructor
        · intro h; exact absurd h (by simp)
        · rintro ⟨heq, hne, -, hmem⟩
          have hcontra : scanTool cs = some (t, c ++ [')']) :=
            (scanTool_eq_some cs t (c ++ [')'])).mpr ⟨heq, hmem⟩
          rw [hscan] at hcontra
          simp only [Option.some.injEq, Prod.mk.injEq] at hcontra
          rw [← hcontra.1] at hne
          exact (hne (by simpa using ht0)).elim
      · simp only [ht0, Bool.false_eq_true, if_false]
        cases hmid : midSplit after0 with
        | none =>
            constructor
            · intro h; exact absurd h (by simp)
            · rintro ⟨heq, -, hcne, hmem⟩
              have hcontra : scanTool cs = some (t, c ++ [')']) :=
                (scanTool_eq_some cs t (c ++ [')'])).mpr ⟨heq, hmem⟩
              rw [hscan] at hcontra
              simp only [Option.some.injEq, Prod.mk.injEq] at hcontra
              have h2 : midSplit after0 = some c :=
                (midSplit_eq_some after0 c).mpr ⟨hcontra.2, hcne⟩
              rw [hmid] at h2
              exact absurd h2 (by simp)
        | some mid =>
            have hm := (midSplit_eq_some after0 mid).mp hmid
            simp only [Option.some.injEq, Prod.mk.injEq]
            constructor
            · rintro ⟨rfl, rfl⟩
              exact ⟨by rw [hrest.1, hm.1], by simpa using ht0, hm.2, hrest.2⟩
            · rintro ⟨heq, -, hcne, hmem⟩
              have hcontra : scanTool cs = some (t, c ++ [')']) :=
                (scanTool_eq_some cs t (c ++ [')'])).mpr ⟨heq, hmem⟩
              rw [hscan] at hcontra
              simp only [Option.some.injEq, Prod.mk.injEq] at hcontra
              have h2 : midSplit after0 = some c :=
                (midSplit_eq_some after0 c).mpr ⟨hcontra.2, hcne⟩
              rw [hmid] at h2
              simp only [Option.some.injEq] at h2
              exact ⟨hcontra.1, h2⟩

theorem splitRule_eq_some (raw t c : String) :
    splitRule raw = some (t, c) ↔
      (raw = t ++ "(" ++ c ++ ")" ∧ t ≠ "" ∧ c ≠ "" ∧ '(' ∉ t.data) := by
  have hdata : (t ++ "(" ++ c ++ ")").data = t.data ++ '(' :: (c.data ++ [')']) := by
    simp [String.data_append]
  unfold splitRule
  cases hs : splitList raw.data with
  | none =>
      constructor
      · intro h; exact absurd h (by simp)
      · rintro ⟨heq, hne1, hne2, hmem⟩
        have hcontra : splitList raw.data = some (t.data, c.data) :=
          (splitList_eq_some raw.data t.data c.data).mpr
            ⟨by rw [heq, hdata], (str_ne_empty t).mp hne1,
              (str_ne_empty c).mp hne2, hmem⟩
        rw [hs] at hcontra
        exact absurd hcontra (by simp)
  | some p =>
      obtain ⟨l1, l2⟩ := p
      have hl := (splitList_eq_some raw.data l1 l2).mp hs
      simp only [Option.some.injEq, Prod.mk.injEq]
      constructor
      · rintro ⟨rfl, rfl⟩
        refine ⟨String.ext_iff.mpr ?_, ?_, ?_, hl.2.2.2⟩
        · rw [hdata]; exact hl.1
        · exact (str_ne_empty _).mpr hl.2.1
        · exact (str_ne_empty _).mpr hl.2.2.1
      · rintro ⟨heq, hne1, hne2, hmem⟩
        have hcontra : splitList raw.data = some (t.data, c.data) :=
          (splitList_eq_some raw.data t.data c.data).mpr
            ⟨by rw [heq, hdata], (str_ne_empty t).mp hne1,
              (str_ne_empty c).mp hne2, hmem⟩
        rw [hs] at hcontra
        simp only [Option.some.injEq, Prod.mk.injEq] at hcontra
        exact ⟨String.ext_iff.mpr hcontra.1, String.ext_iff.mpr hcontra.2⟩

-- --- Helper lemmas: evaluation ---

theorem computeLines_none : computeLines none = none := rfl

theorem ruleMatches_none (r : CompiledRule) (tn : String) :
    ruleMatches r tn none = false := by
  unfold ruleMatches
  cases h : r.toolRe tn <;> simp

theorem matchesAnyLine_none (r : CompiledRule) (tn : String) :
    matchesAnyLine r tn none none = false := by
  unfold matchesAnyLine
  rw [ruleMatches_none]
  rfl

theorem evaluate_none_content (rules : PreparedRules) (tn : String)
    (ti : Option ToolInput) (h : getPrimaryContent tn ti = none) :
    evaluate rules tn ti = none := by
  have hfd : rules.deny.find? (fun r => matchesAnyLine r tn none none) = none := by
    rw [List.find?_eq_none]
    intro d _
    rw [matchesAnyLine_none]
    simp
  have hfa : rules.ask.find? (fun r => matchesAnyLine r tn none none) = none := by
    rw [List.find?_eq_none]
    intro a _
    rw [matchesAnyLine_none]
    simp
  have hany : (rules.allow.any fun r => ruleMatches r tn none) = false := by
    cases hc : rules.allow.any fun r => ruleMatches r tn none with
    | false => rfl
    | true =>
        obtain ⟨r, _, hm⟩ := List.any_eq_true.mp hc
        rw [ruleMatches_none] at hm
        exact absurd hm (by simp)
  simp only [evaluate, h, computeLines_none, hfd, hfa]
  simp [hany]

-- --- Claim theorems ---

/-- Claim C1: deny takes precedence over allow — whenever some deny rule
matches the request under the deny-pass matching rule (full content or any
line of the multiline view) and some allow rule also matches it, `evaluate`
returns a deny decision, never allow. -/
theorem deny_overrides_allow
    (rules : PreparedRules) (tn : String) (ti : Option ToolInput)
    (hd : ∃ d ∈ rules.deny, matchesAnyLine d tn (getPrimaryContent tn ti)
        (computeLines (getPrimaryContent tn ti)) = true)
    (_ha : ∃ a ∈ rules.allow, matchesAnyLine a tn (getPrimaryContent tn ti)
        (computeLines (getPrimaryContent tn ti)) = true) :
    ∃ reason, evaluate rules tn ti = some (Decision.deny reason) := by
  have hfind : (rules.deny.find? (fun r => matchesAnyLine r tn (getPrimaryContent tn ti)
      (computeLines (getPrimaryContent tn ti)))).isSome := by
    rw [List.find?_isSome]
    exact hd
  obtain ⟨d, hfd⟩ := Option.isSome_iff_exists.mp hfind
  refine ⟨jsOrDefault d.reason "Blocked by regex-permissions deny rule", ?_⟩
  simp only [evaluate, hfd]

/-- Witness for C1: a rule set whose deny and allow categories both contain
`Bash(^git)`, on the request `Bash { command: "git push" }`, is denied. -/
theorem deny_overrides_allow_witness :
    ∃ reason, evaluate gitDenyAllowRules "Bash"
      (some ⟨some "git push", none, none, none, none⟩)
        = some (Decision.deny reason) :=
  deny_overrides_allow gitDenyAllowRules "Bash"
    (some ⟨some "git push", none, none, none, none⟩) (by decide) (by decide)

/-- Claim C2: multiline denial propagation — a deny rule matches a multiline
request iff its tool matcher accepts the tool name and its content matcher
accepts the whole content or at least one line of the multiline view; the
first matching deny rule yields deny with its reason or the category
default; concretely, `"git status\nsudo rm -rf /"` against the deny rule
`Bash(^sudo)` is denied. -/
theorem deny_multiline_propagation
    (rules : PreparedRules) (tn : String) (ti : Option ToolInput) (d : CompiledRule)
    (hfind : rules.deny.find? (fun r => matchesAnyLine r tn (getPrimaryContent tn ti)
        (computeLines (getPrimaryContent tn ti))) = some d) :
    evaluate rules tn ti
      = some (Decision.deny (jsOrDefault d.reason "Blocked by regex-permissions deny rule"))
    ∧ (∀ (r : CompiledRule) (c : String) (ls : List String),
        matchesAnyLine r tn (some c) (some ls) = true ↔
          (r.toolRe tn = true ∧
            (r.contentRe c = true ∨ ∃ l ∈ ls, r.contentRe l = true)))
    ∧ evaluate sudoDenyRules "Bash"
        (some ⟨some "git status\nsudo rm -rf /", none, none, none, none⟩)
      = some (Decision.deny "Blocked by regex-permissions deny rule") := by
  refine ⟨?_, ?_, by decide⟩
  · simp only [evaluate, hfind]
  · intro r c ls
    unfold matchesAnyLine ruleMatches
    cases htool : r.toolRe tn <;> simp [List.any_eq_true]

/-- Witness for C2: the first (only) deny rule of the `Bash(^sudo)` rule set
matches the multiline sudo request, so the theorem applies to it. -/
theorem deny_multiline_propagation_witness :
    evaluate sudoDenyRules "Bash"
        (some ⟨some "git status\nsudo rm -rf /", none, none, none, none⟩)
      = some (Decision.deny (jsOrDefault
          (getRule (parseRule sampleEngine (.str "Bash(^sudo)"))).reason
          "Blocked by regex-permissions deny rule")) :=
  (deny_multiline_propagation sudoDenyRules "Bash"
    (some ⟨some "git status\nsudo rm -rf /", none, none, none, none⟩)
    (getRule (parseRule sampleEngine (.str "Bash(^sudo)"))) (by rfl)).1

/-- Claim C9: vacuous multiline allow — when the content contains a newline
but every line trims to empty (so the multiline view is the empty list), and
no deny or ask rule matches the full content, `evaluate` returns allow even
with an empty allow category. -/
theorem vacuous_multiline_allow
    (rules : PreparedRules) (tn : String) (ti : Option ToolInput) (c : String)
    (hc : getPrimaryContent tn ti = some c)
    (_hnl : c.data.contains '\n' = true)
    (hls : computeLines (getPrimaryContent tn ti) = some [])
    (hd : ∀ d ∈ rules.deny, ruleMatches d tn (some c) = false)
    (ha : ∀ a ∈ rules.ask, ruleMatches a tn (some c) = false) :
    evaluate rules tn ti = some Decision.allow := by
  have hdn : rules.deny.find? (fun r => matchesAnyLine r tn (getPrimaryContent tn ti)
      (some [])) = none := by
    rw [List.find?_eq_none]
    intro d hmem
    simp only [matchesAnyLine, hc, hd d hmem]
    simp
  have han : rules.ask.find? (fun r => matchesAnyLine r tn (getPrimaryContent tn ti)
      (some [])) = none := by
    rw [List.find?_eq_none]
    intro a hmem
    simp only [matchesAnyLine, hc, ha a hmem]
    simp
  simp only [evaluate, hls, hdn, han]
  simp

/-- Witness for C9: content `"\n"` under the empty rule set is allowed. -/
theorem vacuous_multiline_allow_witness :
    evaluate ⟨[], [], []⟩ "Bash" (some ⟨some "\n", none, none, none, none⟩)
      = some Decision.allow :=
  vacuous_multiline_allow ⟨[], [], []⟩ "Bash"
    (some ⟨some "\n", none, none, none, none⟩) "\n" (by decide) (by decide)
    (by decide) (by simp) (by simp)

/-- Claim C3: multiline allow completeness — when a multiline view exists and
no deny or ask rule matches, the result is allow iff every line of the view
independently matches some allow rule, and no-match whenever some line is
uncovered; concretely, under the single allow rule
`Bash(^git\s+(status|log|diff))`, `"git status\ngit log"` is allowed and
`"git status\nsome-random-cmd"` is a no-match. -/
theorem allow_multiline_completeness
    (rules : PreparedRules) (tn : String) (ti : Option ToolInput) (ls : List String)
    (hls : computeLines (getPrimaryContent tn ti) = some ls)
    (hd : rules.deny.find? (fun r => matchesAnyLine r tn (getPrimaryContent tn ti)
        (some ls)) = none)
    (ha : rules.ask.find? (fun r => matchesAnyLine r tn (getPrimaryContent tn ti)
        (some ls)) = none) :
    (evaluate rules tn ti = some Decision.allow ↔
      ∀ l ∈ ls, ∃ r ∈ rules.allow, ruleMatches r tn (some l) = true)
    ∧ ((∃ l ∈ ls, ∀ r ∈ rules.allow, ruleMatches r tn (some l) = false) →
        evaluate rules tn ti = none)
    ∧ evaluate gitAllowRules "Bash"
        (some ⟨some "git status\ngit log", none, none, none, none⟩)
      = some Decision.allow
    ∧ evaluate gitAllowRules "Bash"
        (some ⟨some "git status\nsome-random-cmd", none, none, none, none⟩)
      = none := by
  have hiff : (ls.all fun line => rules.allow.any fun r => ruleMatches r tn (some line)) = true ↔
      ∀ l ∈ ls, ∃ r ∈ rules.allow, ruleMatches r tn (some l) = true := by
    rw [List.all_eq_true]
    constructor
    · intro h l hl
      exact List.any_eq_true.mp (h l hl)
    · intro h l hl
      exact List.any_eq_true.mpr (h l hl)
  refine ⟨?_, ?_, by decide, by decide⟩
  · simp only [evaluate, hls, hd, ha]
    cases hcond : ls.all fun line => rules.allow.any fun r => ruleMatches r tn (some line) with
    | true =>
        rw [if_pos rfl]
        exact iff_of_true rfl (hiff.mp hcond)
    | false =>
        rw [if_neg (by simp)]
        constructor
        · intro h; exact absurd h (by simp)
        · intro h
          rw [← hiff, hcond] at h
          exact absurd h (by simp)
  · rintro ⟨l, hl, hfail⟩
    simp only [evaluate, hls, hd, ha]
    cases hcond : ls.all fun line => rules.allow.any fun r => ruleMatches r tn (some line) with
    | false => rw [if_neg (by simp)]
    | true =>
        obtain ⟨r, hr, hm⟩ := List.any_eq_true.mp (List.all_eq_true.mp hcond l hl)
        rw [hfail r hr] at hm
        exact absurd hm (by simp)

/-- Witness for C3: applies the completeness theorem to the
`Bash(^git\s+(status|log|diff))` allow rule set on the two-line content
`"git status\ngit log"`, whose multiline view is both lines. -/
theorem allow_multiline_completeness_witness :
    evaluate gitAllowRules "Bash"
        (some ⟨some "git status\ngit log", none, none, none, none⟩)
      = some Decision.allow :=
  (allow_multiline_completeness gitAllowRules "Bash"
    (some ⟨some "git status\ngit log", none, none, none, none⟩)
    ["git status", "git log"] (by decide) (by rfl) (by rfl)).1.mpr (by decide)

-- Any rule whose content pattern fails the safety heuristic is dropped by
-- `parseRule` (`null`), whatever the engine does with the tool pattern.
theorem parseRule_drops_unsafe (eng : Engine) (s t c : String)
    (hs : rawText (RuleEntry.str s) = .ok (some s))
    (hsplit : splitRule s = some (t, c))
    (hbad : isSafeRegex c = false) :
    parseRule eng (RuleEntry.str s) = .ok none := by
  have hcr : toRegex eng c none = none := by
    unfold toRegex
    rw [hbad]
    simp
  simp only [parseRule, hs, hsplit, entryFlagsVal, resolveFlags, hcr]
  cases h2 : toRegex eng (anchorTool t) none <;> rfl

/-- Claim C4: the ReDoS safety heuristic rejects (the compiler returns the
null sentinel for) the canonical nested-quantifier shapes `(a+)+`, `(.+)*`,
`(\d+)+` and `(\s*)+`, and in general every pattern containing a group of a
single quantified atom directly followed by the closing paren and a further
quantifier or repetition brace; it accepts `(-H\s+\S+\s+)*` (compiled by the
model engine); a rejected pattern never raises — `toRegex` merely returns
`none` and `parseRule` drops the rule. -/
theorem redos_heuristic (eng : Engine) (flags : Option String) :
    toRegex eng "(a+)+" flags = none
    ∧ toRegex eng "(.+)*" flags = none
    ∧ toRegex eng "(\\d+)+" flags = none
    ∧ toRegex eng "(\\s*)+" flags = none
    ∧ (∀ p : String, hasUnsafeShape p.data = true → toRegex eng p flags = none)
    ∧ isSafeRegex "(-H\\s+\\S+\\s+)*" = true
    ∧ (toRegex sampleEngine "(-H\\s+\\S+\\s+)*" none).isSome = true
    ∧ parseRule eng (RuleEntry.str "Bash((a+)+)") = .ok none := by
  have hgen : ∀ (fl : Option String) (p : String),
      hasUnsafeShape p.data = true → toRegex eng p fl = none := by
    intro fl p hp
    unfold toRegex isSafeRegex
    rw [hp]
    simp
  refine ⟨hgen flags _ (by decide), hgen flags _ (by decide), hgen flags _ (by decide),
    hgen flags _ (by decide), hgen flags, by decide, by decide, ?_⟩
  exact parseRule_drops_unsafe eng "Bash((a+)+)" "Bash" "(a+)+" (by rfl) (by decide)
    (by decide)

/-- Witness for C4: concrete rejections through the model engine, including
one through the general shape clause (a brace-quantified group) and the
accepted pattern. -/
theorem redos_heuristic_witness :
    toRegex sampleEngine "(a+)+" none = none
    ∧ toRegex sampleEngine "(q*)\x7b2\x7d" none = none
    ∧ (toRegex sampleEngine "(-H\\s+\\S+\\s+)*" none).isSome = true := by
  refine ⟨(redos_heuristic sampleEngine none).1, ?_, (redos_heuristic sampleEngine none).2.2.2.2.2.2.1⟩
  exact (redos_heuristic sampleEngine none).2.2.2.2.1 "(q*)\x7b2\x7d" (by decide)

/-- Claim C5: tool-matcher invariant — every successfully parsed rule has its
tool matcher compiled from the anchored pattern `^(?:<tool>)$` with no flags
(the entry's flags reach only the content matcher), so under any engine
semantics for anchored patterns the matcher accepts a name iff the whole
name matches the tool pattern; concretely, the rule `Edit(^/tmp/)` does not
match tool name `NotebookEdit`, and a `WebFetch` rule with flags `"i"` does
not match tool name `webfetch` even though its content matches
case-insensitively. -/
theorem tool_matcher_anchored
    (eng : Engine) (FullM : String → String → Prop)
    (heng : ∀ p m, eng (anchorTool p) "" = some m → ∀ s, (m s = true ↔ FullM p s))
    (entry : RuleEntry) (r : CompiledRule)
    (hp : parseRule eng entry = .ok (some r)) :
    (∃ raw t c flags, rawText entry = .ok (some raw)
        ∧ splitRule raw = some (t, c)
        ∧ resolveFlags (entryFlagsVal entry) = .ok flags
        ∧ toRegex eng (anchorTool t) none = some r.toolRe
        ∧ toRegex eng c flags = some r.contentRe
        ∧ r.reason = entryReason entry
        ∧ (∀ s, r.toolRe s = true ↔ FullM t s))
    ∧ ruleMatches editRule "NotebookEdit" (some "/tmp/x") = false
    ∧ ruleMatches editRule "Edit" (some "/tmp/x") = true
    ∧ ruleMatches webFetchIRule "webfetch" (some "HTTPS://EXAMPLE.COM/a") = false
    ∧ ruleMatches webFetchIRule "WebFetch" (some "HTTPS://EXAMPLE.COM/a") = true := by
  refine ⟨?_, by decide, by decide, by decide, by decide⟩
  unfold parseRule at hp
  cases hraw : rawText entry with
  | error e =>
      simp only [hraw] at hp
      exact absurd hp (by simp)
  | ok raw? =>
      simp only [hraw] at hp
      cases raw? with
      | none => simp at hp
      | some raw =>
          cases hsplit : splitRule raw with
          | none =>
              simp only [hsplit] at hp
              simp at hp
          | some tc =>
              obtain ⟨t, c⟩ := tc
              simp only [hsplit] at hp
              cases hfl : resolveFlags (entryFlagsVal entry) with
              | error e =>
                  simp only [hfl] at hp
                  exact absurd hp (by simp)
              | ok flags =>
                  simp only [hfl] at hp
                  cases htool : toRegex eng (anchorTool t) none with
                  | none =>
                      simp only [htool] at hp
                      simp at hp
                  | some tre =>
                      simp only [htool] at hp
                      cases hcont : toRegex eng c flags with
                      | none =>
                          simp only [hcont] at hp
                          simp at hp
                      | some cre =>
                          simp only [hcont] at hp
                          simp only [Except.ok.injEq, Option.some.injEq] at hp
                          subst hp
                          have hengx : eng (anchorTool t) "" = some tre := by
                            unfold toRegex at htool
                            cases hsafe : isSafeRegex (anchorTool t) with
                            | false => rw [hsafe] at htool; simp at htool
                            | true => rw [hsafe] at htool; simpa using htool
                          exact ⟨raw, t, c, flags, rfl, hsplit, rfl, htool, hcont, rfl,
                            fun s => heng t tre hengx s⟩

/-- Witness for C5: the theorem applied to the model engine (with the
whole-name semantics it induces on anchored tool patterns) and the parsed
rule `Edit(^/tmp/)`. -/
theorem tool_matcher_anchored_witness :
    (∃ raw t c flags, rawText (RuleEntry.str "Edit(^/tmp/)") = .ok (some raw)
        ∧ splitRule raw = some (t, c)
        ∧ resolveFlags (entryFlagsVal (RuleEntry.str "Edit(^/tmp/)")) = .ok flags
        ∧ toRegex sampleEngine (anchorTool t) none = some editRule.toolRe
        ∧ toRegex sampleEngine c flags = some editRule.contentRe
        ∧ editRule.reason = entryReason (RuleEntry.str "Edit(^/tmp/)")
        ∧ (∀ s, editRule.toolRe s = true ↔ fullMatchVia sampleEngine t s))
    ∧ ruleMatches editRule "NotebookEdit" (some "/tmp/x") = false
    ∧ ruleMatches editRule "Edit" (some "/tmp/x") = true
    ∧ ruleMatches webFetchIRule "webfetch" (some "HTTPS://EXAMPLE.COM/a") = false
    ∧ ruleMatches webFetchIRule "WebFetch" (some "HTTPS://EXAMPLE.COM/a") = true := by
  refine tool_matcher_anchored sampleEngine (fullMatchVia sampleEngine) ?_
    (RuleEntry.str "Edit(^/tmp/)") editRule (by rfl)
  intro p m h s
  constructor
  · intro hm
    exact ⟨m, h, hm⟩
  · rintro ⟨m2, h2, hm2⟩
    rw [h] at h2
    rw [Option.some.inj h2]
    exact hm2

/-- Claim C6 exhibit: `prepareRules` is not total — an object entry whose
`rule` field is a truthy non-string value (the raw text check `!raw` passes
and `raw.match` then throws a TypeError), or whose rule parses but whose
`flags` field is a truthy non-string (`flags.includes` throws), makes the
whole preparation throw instead of dropping the malformed rule. -/
theorem prepare_rules_throws_on_malformed (eng : Engine) :
    prepareRules eng ⟨CVal.arr [RuleEntry.obj JsStrField.truthyNonStr none JsStrField.falsy],
        CVal.arr [], CVal.arr []⟩ = .error ()
    ∧ prepareRules eng ⟨CVal.arr [RuleEntry.obj (JsStrField.str "Bash(^git)") none
        JsStrField.truthyNonStr], CVal.arr [], CVal.arr []⟩ = .error () := by
  exact ⟨rfl, rfl⟩

-- The `a || b || c || d` fallback chain returns the first present non-empty
-- string, or else the value of the final operand (which may be the present
-- empty string).
theorem jsOr_chain (a b c d : Option String) :
    jsOr a (jsOr b (jsOr c d)) = (firstNonEmpty [a, b, c, d]).elim d some := by
  rcases a with _ | sa
  · rcases b with _ | sb
    · rcases c with _ | sc
      · rcases d with _ | sd
        · rfl
        · by_cases h : sd.isEmpty <;> simp [jsOr, firstNonEmpty, h]
      · by_cases h : sc.isEmpty
        · rcases d with _ | sd
          · simp [jsOr, firstNonEmpty, h]
          · by_cases h2 : sd.isEmpty <;> simp [jsOr, firstNonEmpty, h, h2]
        · simp [jsOr, firstNonEmpty, h]
    · by_cases h : sb.isEmpty
      · rcases c with _ | sc
        · rcases d with _ | sd
          · simp [jsOr, firstNonEmpty, h]
          · by_cases h2 : sd.isEmpty <;> simp [jsOr, firstNonEmpty, h, h2]
        · by_cases h2 : sc.isEmpty
          · rcases d with _ | sd
            · simp [jsOr, firstNonEmpty, h, h2]
            · by_cases h3 : sd.isEmpty <;> simp [jsOr, firstNonEmpty, h, h2, h3]
          · simp [jsOr, firstNonEmpty, h, h2]
      · simp [jsOr, firstNonEmpty, h]
  · by_cases h : sa.isEmpty
    · rcases b with _ | sb
      · rcases c with _ | sc
        · rcases d with _ | sd
          · simp [jsOr, firstNonEmpty, h]
          · by_cases h2 : sd.isEmpty <;> simp [jsOr, firstNonEmpty, h, h2]
        · by_cases h2 : sc.isEmpty
          · rcases d with _ | sd
            · simp [jsOr, firstNonEmpty, h, h2]
            · by_cases h3 : sd.isEmpty <;> simp [jsOr, firstNonEmpty, h, h2, h3]
          · simp [jsOr, firstNonEmpty, h, h2]
      · by_cases h2 : sb.isEmpty
        · rcases c with _ | sc
          · rcases d with _ | sd
            · simp [jsOr, firstNonEmpty, h, h2]
            · by_cases h3 : sd.isEmpty <;> simp [jsOr, firstNonEmpty, h, h2, h3]
          · by_cases h3 : sc.isEmpty
            · rcases d with _ | sd
              · simp [jsOr, firstNonEmpty, h, h2, h3]
              · by_cases h4 : sd.isEmpty <;> simp [jsOr, firstNonEmpty, h, h2, h3, h4]
            · simp [jsOr, firstNonEmpty, h, h2, h3]
        · simp [jsOr, firstNonEmpty, h, h2]
    · simp [jsOr, firstNonEmpty, h]

/-- Claim C7 counterexample: the fallback for an unknown tool is not "first
present of command, file_path, url, pattern" — with `command` present but
empty and `file_path` present, the source's `||` chain skips the empty
string and returns `file_path`, while the spec-following extractor returns
the empty `command`. -/
theorem content_extractor_divergence :
    getPrimaryContent "mcp__db__query" (some ⟨some "", some "/x", none, none, none⟩)
      = some "/x"
    ∧ getPrimaryContentPerSpec "mcp__db__query" (some ⟨some "", some "/x", none, none, none⟩)
      = some ""
    ∧ (some "/x" : Option String) ≠ some "" := by
  refine ⟨rfl, rfl, by decide⟩

/-- Claim C7 amended: the extractor returns the table-designated field for
the named tools, and for any other tool the first present non-empty string
among command, file_path, url, pattern in that order — falling back, when
all four are empty or absent, to the value of the `pattern` field (the empty
string when `pattern` is present and empty, undefined otherwise); it returns
undefined when the argument bag is absent, and a request whose extracted
content is undefined matches no rule, so `evaluate` returns no-match. -/
theorem content_extractor_contract
    (ti : ToolInput) (tn : String)
    (hun : tn ∉ (["Bash", "Edit", "Write", "Read", "WebFetch",
        "Grep", "Glob", "WebSearch"] : List String)) :
    getPrimaryContent "Bash" (some ti) = ti.command
    ∧ getPrimaryContent "Edit" (some ti) = ti.file_path
    ∧ getPrimaryContent "Write" (some ti) = ti.file_path
    ∧ getPrimaryContent "Read" (some ti) = ti.file_path
    ∧ getPrimaryContent "WebFetch" (some ti) = ti.url
    ∧ getPrimaryContent "Grep" (some ti) = ti.pattern
    ∧ getPrimaryContent "Glob" (some ti) = ti.pattern
    ∧ getPrimaryContent "WebSearch" (some ti) = ti.query
    ∧ getPrimaryContent tn none = none
    ∧ getPrimaryContent tn (some ti)
        = (firstNonEmpty [ti.command, ti.file_path, ti.url, ti.pattern]).elim
            ti.pattern some
    ∧ (∀ (rules : PreparedRules) (tn2 : String) (ti2 : Option ToolInput),
        getPrimaryContent tn2 ti2 = none → evaluate rules tn2 ti2 = none) := by
  simp only [List.mem_cons, List.mem_singleton, not_or] at hun
  obtain ⟨h1, h2, h3, h4, h5, h6, h7, h8⟩ := hun
  refine ⟨rfl, rfl, rfl, rfl, rfl, rfl, rfl, rfl, rfl, ?_, ?_⟩
  · rw [← jsOr_chain]
    simp only [getPrimaryContent]
    rw [if_neg (by simpa using h1), if_neg (by simp [h2, h3, h4]),
      if_neg (by simpa using h5), if_neg (by simpa using h6),
      if_neg (by simpa using h7), if_neg (by simpa using h8)]
  · intro rules tn2 ti2 h
    exact evaluate_none_content rules tn2 ti2 h

/-- Witness for C7 amended: the fallback characterization applied to the
unknown tool `mcp__db__query` with an empty command and a present file
path. -/
theorem content_extractor_contract_witness :
    getPrimaryContent "mcp__db__query" (some ⟨some "", some "/x", none, none, none⟩)
      = (firstNonEmpty [some "", some "/x", none, none]).elim none some :=
  (content_extractor_contract ⟨some "", some "/x", none, none, none⟩
    "mcp__db__query" (by decide)).2.2.2.2.2.2.2.2.2.1

/-- Claim C8 counterexample: `parse` does not return null *exactly* when the
`<toolPattern>(<contentPattern>)` shape is not found — the well-shaped rule
text `Bash((a+)+)` splits successfully (tool `Bash`, content `(a+)+`) yet
`parseRule` still returns null, because the content pattern is rejected by
the safety heuristic. -/
theorem parse_null_beyond_shape :
    splitRule "Bash((a+)+)" = some ("Bash", "(a+)+")
    ∧ parseRule sampleEngine (RuleEntry.str "Bash((a+)+)") = .ok none := by
  exact ⟨by decide, by rfl⟩

/-- Claim C8 amended: the split takes everything before the first `(` as the
tool portion (nonempty, hence `(`-free) and everything between that `(` and
the final `)` as the content portion (nonempty, possibly containing
parentheses) — `splitRule raw` succeeds exactly on strings of that shape;
`parse` returns null whenever the raw text is absent or empty or the shape
is not found (but may also return null for well-shaped rules whose patterns
fail to compile). -/
theorem rule_split_semantics
    (eng : Engine) (raw t c : String) (entry : RuleEntry) :
    (splitRule raw = some (t, c) ↔
      (raw = t ++ "(" ++ c ++ ")" ∧ t ≠ "" ∧ c ≠ "" ∧ '(' ∉ t.data))
    ∧ parseRule eng (RuleEntry.str "") = .ok none
    ∧ (rawText entry = .ok none → parseRule eng entry = .ok none)
    ∧ (rawText entry = .ok (some raw) → splitRule raw = none →
        parseRule eng entry = .ok none) := by
  refine ⟨splitRule_eq_some raw t c, rfl, ?_, ?_⟩
  · intro h
    simp only [parseRule, h]
  · intro h1 h2
    simp only [parseRule, h1, h2]

/-- Witness for C8 amended: the characterization applied to the rule text
`Bash(a(b)c)`, whose content portion contains parentheses, and the
null results on the empty raw text and on a junk (number) entry. -/
theorem rule_split_semantics_witness :
    splitRule "Bash(a(b)c)" = some ("Bash", "a(b)c")
    ∧ parseRule sampleEngine (RuleEntry.junk "5") = .ok none := by
  constructor
  · exact (rule_split_semantics sampleEngine "Bash(a(b)c)" "Bash" "a(b)c"
      (RuleEntry.junk "5")).1.mpr ⟨by decide, by decide, by decide, by decide⟩
  · exact (rule_split_semantics sampleEngine "Bash(a(b)c)" "Bash" "a(b)c"
      (RuleEntry.junk "5")).2.2.1 (by rfl)

/-- Claim C10 counterexample: when the malformed (string) category value is
in the second configuration and the first holds an array, the merge is
`Array.prototype.concat`, not string concatenation — the result is an array
with the string appended as an entry, and the first scope's well-formed rule
survives preparation instead of being dropped. -/
theorem merge_nonarray_counterexample :
    (mergeConfigs (some ⟨CVal.arr [RuleEntry.str "Bash(^git)"], CVal.falsy, CVal.falsy⟩)
        (some ⟨CVal.str "x", CVal.falsy, CVal.falsy⟩)).deny
      = CVal.arr [RuleEntry.str "Bash(^git)", RuleEntry.str "x"]
    ∧ (parseCategory sampleEngine ((mergeConfigs
        (some ⟨CVal.arr [RuleEntry.str "Bash(^git)"], CVal.falsy, CVal.falsy⟩)
        (some ⟨CVal.str "x", CVal.falsy, CVal.falsy⟩)).deny)).map List.length
      = .ok 1 := by
  exact ⟨rfl, rfl⟩

/-- Claim C10 amended: when both configurations are present and the *first*
scope's category value is a non-empty string, the merge is
`String.prototype.concat` — the second scope's array is string-converted and
appended, the merged category is a (non-array) string, and `prepareRules`
then treats it as empty, dropping the second scope's well-formed rules of
that category as well; the same entries merged as an array alone would have
produced one parsed rule. -/
theorem merge_string_contamination
    (s : String) (hs : s.isEmpty = false) (xs : List RuleEntry)
    (a1 a2 b1 b2 : CVal) (eng : Engine) :
    (mergeConfigs (some ⟨CVal.str s, a1, a2⟩) (some ⟨CVal.arr xs, b1, b2⟩)).deny
        = CVal.str (s ++ entriesToString xs)
    ∧ parseCategory eng ((mergeConfigs (some ⟨CVal.str s, a1, a2⟩)
        (some ⟨CVal.arr xs, b1, b2⟩)).deny) = .ok []
    ∧ (parseCategory sampleEngine (CVal.arr [RuleEntry.str "Bash(^git)"])).map List.length
        = .ok 1 := by
  have hdeny : (mergeConfigs (some ⟨CVal.str s, a1, a2⟩)
      (some ⟨CVal.arr xs, b1, b2⟩)).deny = CVal.str (s ++ entriesToString xs) := by
    simp only [mergeConfigs, mergeCat, CVal.orEmpty, hs, Bool.false_eq_true, if_false]
  refine ⟨hdeny, ?_, rfl⟩
  rw [hdeny]
  rfl

/-- Witness for C10 amended: a project scope whose deny value is the string
`"boom"` merged with a global scope holding the well-formed deny rule
`Bash(^git)`. -/
theorem merge_string_contamination_witness :
    (mergeConfigs (some ⟨CVal.str "boom", CVal.falsy, CVal.falsy⟩)
        (some ⟨CVal.arr [RuleEntry.str "Bash(^git)"], CVal.falsy, CVal.falsy⟩)).deny
      = CVal.str ("boom" ++ entriesToString [RuleEntry.str "Bash(^git)"])
    ∧ parseCategory sampleEngine ((mergeConfigs
        (some ⟨CVal.str "boom", CVal.falsy, CVal.falsy⟩)
        (some ⟨CVal.arr [RuleEntry.str "Bash(^git)"], CVal.falsy, CVal.falsy⟩)).deny)
      = .ok []
    ∧ (parseCategory sampleEngine (CVal.arr [RuleEntry.str "Bash(^git)"])).map List.length
      = .ok 1 :=
  merge_string_contamination "boom" (by decide) [RuleEntry.str "Bash(^git)"]
    CVal.falsy CVal.falsy CVal.falsy CVal.falsy sampleEngine

end RegexPermissions
